import Mathlib

/-!
Verification of the imigrate migration engine against its specification.

The Go source (imigrate.go) is shallowly embedded: file contents are lists of
characters, the line-oriented reader of `Migration.Valid` is modelled by
`splitLines`, the regexp matchers are abstract Boolean predicates on lines,
and the SQL executor is modelled by an oracle deciding which statement
executions fail together with an observable database state (tracking table
contents and the trace of executed statements).
-/

namespace Imigrate

/-- Model of repeated `bufio.Reader.ReadString` calls on a character stream:
returns the newline-terminated lines of the stream (each line including its
trailing newline character, exactly as `ReadString` returns it) together with
the unterminated remainder that `ReadString` hands back alongside `io.EOF`. -/
def splitLines : List Char → List (List Char) × List Char
  | [] => ([], [])
  | c :: cs =>
    let r := splitLines cs
    if c = '\n' then (['\n'] :: r.1, r.2)
    else
      match r with
      | (l :: ls, rest) => ((c :: l) :: ls, rest)
      | ([], rest) => ([], c :: rest)

/-- State of the `Migration.Valid` scan: the `upStart` and `dnStart` flags and
the accumulated `Up` and `Dn` SQL bodies. -/
structure ParseState where
  upStart : Bool
  dnStart : Bool
  up : List Char
  dn : List Char
  deriving DecidableEq, Repr

/-- One iteration of the loop body of `Migration.Valid` on a complete line
`l`, with `upKey` and `dnKey` modelling the two regexp matchers. -/
def validStep (upKey dnKey : List Char → Bool) (st : ParseState) (l : List Char) : ParseState :=
  if !st.upStart && upKey l then { st with upStart := true }
  else if st.upStart && !st.dnStart && dnKey l then { st with dnStart := true }
  else if st.upStart && !st.dnStart then { st with up := st.up ++ l }
  else if st.dnStart then { st with dn := st.dn ++ l }
  else st

/-- Folding the loop body of `Migration.Valid` over a list of lines, starting
from the all-empty state. -/
def runLines (upKey dnKey : List Char → Bool) (lines : List (List Char)) : ParseState :=
  lines.foldl (validStep upKey dnKey) ⟨false, false, [], []⟩

/-- Model of `Migration.Valid` on raw file content: only the
newline-terminated lines are processed (on `io.EOF` the Go loop breaks before
looking at the returned partial line), and the resulting state carries the
accumulated bodies and flags. -/
def MigrationValid (upKey dnKey : List Char → Bool) (content : List Char) : ParseState :=
  runLines upKey dnKey (splitLines content).1

/-- The Boolean result of `Migration.Valid`: both markers were seen. -/
def ParseState.isValid (st : ParseState) : Bool :=
  st.upStart && st.dnStart

/-- A line body turned into the line the reader returns for it. -/
def lineOf (b : List Char) : List Char := b ++ ['\n']

/-- File content made of the given newline-free line bodies, each terminated
by a newline. -/
def joinLines (bs : List (List Char)) : List Char := (bs.map lineOf).flatten

theorem splitLines_no_newline (t : List Char) (h : t.contains '\n' = false) :
    splitLines t = ([], t) := by
  induction t with
  | nil => rfl
  | cons c cs ih =>
    simp only [List.contains_cons, Bool.or_eq_false_iff] at h
    obtain ⟨h1, h2⟩ := h
    have hc : ¬ c = '\n' := by
      intro hc
      subst hc
      simp at h1
    rw [splitLines, ih h2]
    simp [hc]

theorem splitLines_line (s rest : List Char) (h : s.contains '\n' = false) :
    splitLines (s ++ '\n' :: rest) =
      ((s ++ ['\n']) :: (splitLines rest).1, (splitLines rest).2) := by
  induction s with
  | nil => simp [splitLines]
  | cons c cs ih =>
    simp only [List.contains_cons, Bool.or_eq_false_iff] at h
    obtain ⟨h1, h2⟩ := h
    have hc : ¬ c = '\n' := by
      intro hc
      subst hc
      simp at h1
    rw [List.cons_append, splitLines, ih h2]
    simp [hc]

theorem splitLines_joinLines (bs : List (List Char)) (t : List Char)
    (h : ∀ b ∈ bs, b.contains '\n' = false) :
    splitLines (joinLines bs ++ t) = (bs.map lineOf ++ (splitLines t).1, (splitLines t).2) := by
  induction bs with
  | nil => simp [joinLines]
  | cons b bs ih =>
    have hb : b.contains '\n' = false := h b (by simp)
    have hbs : ∀ x ∈ bs, x.contains '\n' = false := fun x hx => h x (by simp [hx])
    have : joinLines (b :: bs) ++ t = b ++ '\n' :: (joinLines bs ++ t) := by
      simp [joinLines, lineOf]
    rw [this, splitLines_line b _ hb, ih hbs]
    simp [lineOf]

theorem foldl_validStep_before_up (k1 k2 : List Char → Bool) (L : List (List Char))
    (st : ParseState) (hup : st.upStart = false) (hdn : st.dnStart = false)
    (h : ∀ l ∈ L, k1 l = false) :
    L.foldl (validStep k1 k2) st = st := by
  induction L with
  | nil => rfl
  | cons l L ih =>
    have h1 : k1 l = false := h l (by simp)
    have h2 : ∀ x ∈ L, k1 x = false := fun x hx => h x (by simp [hx])
    rw [List.foldl_cons]
    have : validStep k1 k2 st l = st := by
      simp [validStep, hup, hdn, h1]
    rw [this, ih h2]

theorem foldl_validStep_in_up (k1 k2 : List Char → Bool) (L : List (List Char))
    (st : ParseState) (hup : st.upStart = true) (hdn : st.dnStart = false)
    (h : ∀ l ∈ L, k2 l = false) :
    L.foldl (validStep k1 k2) st = { st with up := st.up ++ L.flatten } := by
  induction L generalizing st with
  | nil => simp
  | cons l L ih =>
    have h1 : k2 l = false := h l (by simp)
    have h2 : ∀ x ∈ L, k2 x = false := fun x hx => h x (by simp [hx])
    rw [List.foldl_cons]
    have hstep : validStep k1 k2 st l = { st with up := st.up ++ l } := by
      simp [validStep, hup, hdn, h1]
    rw [hstep, ih { st with up := st.up ++ l } hup hdn h2]
    simp

theorem foldl_validStep_in_dn (k1 k2 : List Char → Bool) (L : List (List Char))
    (st : ParseState) (hup : st.upStart = true) (hdn : st.dnStart = true) :
    L.foldl (validStep k1 k2) st = { st with dn := st.dn ++ L.flatten } := by
  induction L generalizing st with
  | nil => simp
  | cons l L ih =>
    rw [List.foldl_cons]
    have hstep : validStep k1 k2 st l = { st with dn := st.dn ++ l } := by
      simp [validStep, hup, hdn]
    rw [hstep, ih { st with dn := st.dn ++ l } hup hdn]
    simp

theorem validStep_dnStart_false (k1 k2 : List Char → Bool) (st : ParseState) (l : List Char)
    (hdn : st.dnStart = false) (h1 : k2 l = false) :
    (validStep k1 k2 st l).dnStart = false := by
  rw [validStep]
  split
  · simpa using hdn
  · split
    · rename_i hcond
      rw [h1] at hcond
      simp at hcond
    · split
      · simpa using hdn
      · split
        · rename_i hcond
          rw [hdn] at hcond
          simp at hcond
        · exact hdn

theorem foldl_validStep_dnStart_false (k1 k2 : List Char → Bool) (L : List (List Char))
    (st : ParseState) (hdn : st.dnStart = false) (h : ∀ l ∈ L, k2 l = false) :
    (L.foldl (validStep k1 k2) st).dnStart = false := by
  induction L generalizing st with
  | nil => exact hdn
  | cons l L ih =>
    rw [List.foldl_cons]
    exact ih _ (validStep_dnStart_false k1 k2 st l hdn (h l (by simp)))
      (fun x hx => h x (by simp [hx]))

/-- Exact characterization of a run of `Migration.Valid` on a well-formed
file: lines before the up-marker are dropped, the two marker lines are
consumed, the lines strictly between the markers form `Up` and the lines
after the down-marker form `Dn`, and the file is judged valid. -/
theorem runLines_exact (k1 k2 : List Char → Bool) (pre mid post : List (List Char))
    (u d : List Char)
    (hpre : ∀ l ∈ pre, k1 l = false)
    (hu : k1 u = true)
    (hmid : ∀ l ∈ mid, k2 l = false)
    (hd : k2 d = true) :
    runLines k1 k2 (pre ++ u :: mid ++ d :: post) =
      ⟨true, true, mid.flatten, post.flatten⟩ := by
  rw [runLines]
  rw [show pre ++ u :: mid ++ d :: post = pre ++ ([u] ++ (mid ++ ([d] ++ post))) by simp]
  rw [List.foldl_append, List.foldl_append, List.foldl_append, List.foldl_append]
  rw [foldl_validStep_before_up k1 k2 pre _ rfl rfl hpre]
  have s1 : List.foldl (validStep k1 k2) ⟨false, false, [], []⟩ [u] =
      ⟨true, false, [], []⟩ := by
    simp [validStep, hu]
  rw [s1, foldl_validStep_in_up k1 k2 mid _ rfl rfl hmid]
  have s2 : List.foldl (validStep k1 k2) ⟨true, false, ([] : List Char) ++ mid.flatten, []⟩ [d] =
      ⟨true, true, mid.flatten, []⟩ := by
    simp [validStep, hd]
  rw [s2, foldl_validStep_in_dn k1 k2 post _ rfl rfl]
  simp

/-- C2: for a migration file judged valid, whose lines are the newline-free
bodies `pre ++ [u] ++ mid ++ [d] ++ post` where `u` is the up-marker line, `d`
the down-marker line, no earlier line matches the up-marker and no line
between the markers matches the down-marker, parsing produces exactly the
`mid` lines as the up-SQL and exactly the `post` lines as the down-SQL, with
neither marker line included and all lines before the up-marker discarded. -/
theorem C2_parser_exact_lines (k1 k2 : List Char → Bool)
    (pre mid post : List (List Char)) (u d : List Char)
    (hnl : ∀ b ∈ pre ++ [u] ++ mid ++ [d] ++ post, b.contains '\n' = false)
    (hpre : ∀ b ∈ pre, k1 (lineOf b) = false)
    (hu : k1 (lineOf u) = true)
    (hmid : ∀ b ∈ mid, k2 (lineOf b) = false)
    (hd : k2 (lineOf d) = true) :
    MigrationValid k1 k2 (joinLines (pre ++ [u] ++ mid ++ [d] ++ post)) =
      ⟨true, true, joinLines mid, joinLines post⟩ := by
  rw [MigrationValid]
  have hsplit := splitLines_joinLines (pre ++ [u] ++ mid ++ [d] ++ post) [] hnl
  rw [List.append_nil] at hsplit
  rw [hsplit]
  simp only [splitLines, List.append_nil, List.map_append, List.map_cons]
  have := runLines_exact k1 k2 (pre.map lineOf) (mid.map lineOf) (post.map lineOf)
    (lineOf u) (lineOf d)
    (by intro l hl; obtain ⟨b, hb, rfl⟩ := List.mem_map.mp hl; exact hpre b hb)
    hu
    (by intro l hl; obtain ⟨b, hb, rfl⟩ := List.mem_map.mp hl; exact hmid b hb)
    hd
  simp only [List.map_nil] at this ⊢
  have hl : pre.map lineOf ++ [lineOf u] ++ mid.map lineOf ++ [lineOf d] ++ post.map lineOf
      = pre.map lineOf ++ lineOf u :: mid.map lineOf ++ lineOf d :: post.map lineOf := by
    simp
  rw [hl, this]
  simp [joinLines]

theorem C2_parser_exact_lines_witness :
    MigrationValid (fun l => l.contains 'U') (fun l => l.contains 'D')
      (joinLines ([['x']] ++ [['U']] ++ [['a'], ['b']] ++ [['D']] ++ [['c']])) =
      ⟨true, true, joinLines [['a'], ['b']], joinLines [['c']]⟩ :=
  C2_parser_exact_lines (fun l => l.contains 'U') (fun l => l.contains 'D')
    [['x']] [['a'], ['b']] [['c']] ['U'] ['D']
    (by decide) (by decide) (by decide) (by decide) (by decide)

/-- C9: an unterminated final line is discarded entirely by the parser: the
parse of terminated lines followed by a newline-free tail equals the parse of
the terminated lines alone, and in particular a file whose down-marker would
match only on that unterminated tail is judged invalid. -/
theorem C9_unterminated_line_discarded (k1 k2 : List Char → Bool)
    (bodies : List (List Char)) (t : List Char)
    (hnlb : ∀ b ∈ bodies, b.contains '\n' = false)
    (hnt : t.contains '\n' = false) :
    MigrationValid k1 k2 (joinLines bodies ++ t) = MigrationValid k1 k2 (joinLines bodies) ∧
    ((∀ b ∈ bodies, k2 (lineOf b) = false) → k2 t = true →
      (MigrationValid k1 k2 (joinLines bodies ++ t)).isValid = false) := by
  have hsplit := splitLines_joinLines bodies t hnlb
  rw [splitLines_no_newline t hnt] at hsplit
  have hsplit0 := splitLines_joinLines bodies [] hnlb
  rw [List.append_nil] at hsplit0
  have heq : MigrationValid k1 k2 (joinLines bodies ++ t) = MigrationValid k1 k2 (joinLines bodies) := by
    rw [MigrationValid, MigrationValid, hsplit, hsplit0]
    simp [splitLines]
  refine ⟨heq, fun hno hkt => ?_⟩
  rw [heq]
  rw [MigrationValid, hsplit0]
  simp only [splitLines, List.append_nil]
  have : (runLines k1 k2 (bodies.map lineOf)).dnStart = false := by
    rw [runLines]
    apply foldl_validStep_dnStart_false k1 k2 _ _ rfl
    intro l hl
    obtain ⟨b, hb, rfl⟩ := List.mem_map.mp hl
    exact hno b hb
  rw [runLines] at this ⊢
  simp [ParseState.isValid, this]

theorem C9_unterminated_line_discarded_witness :
    MigrationValid (fun l => l.contains 'U') (fun l => l.contains 'D')
      (joinLines [['x'], ['U'], ['a']] ++ ['D']) =
      MigrationValid (fun l => l.contains 'U') (fun l => l.contains 'D')
        (joinLines [['x'], ['U'], ['a']]) ∧
    ((∀ b ∈ [['x'], ['U'], ['a']], (fun l => l.contains 'D') (lineOf b) = false) →
      (fun l => l.contains 'D') ['D'] = true →
      (MigrationValid (fun l => l.contains 'U') (fun l => l.contains 'D')
        (joinLines [['x'], ['U'], ['a']] ++ ['D'])).isValid = false) :=
  C9_unterminated_line_discarded (fun l => l.contains 'U') (fun l => l.contains 'D')
    [['x'], ['U'], ['a']] ['D'] (by decide) (by decide)

/-- A migration in the registry: its version and the parsed up and down SQL
bodies. The derived timestamp and the file metadata carried by the Go struct
are diagnostic only and not modelled. -/
structure Migration where
  Version : Int
  Up : List Char
  Dn : List Char
  deriving DecidableEq, Repr

/-- A directory entry as `setup` sees it: the file name and, when the file
can be opened, its content (`none` models an open failure, which the loop
logs and skips). -/
structure FileEntry where
  name : List Char
  content : Option (List Char)
  deriving DecidableEq, Repr

/-- Longest leading run of decimal digits of a file name, as the version
extraction pattern matches it. -/
def leadingDigits (name : List Char) : List Char :=
  name.takeWhile (fun c => c.isDigit)

/-- Numeric value of a digit string, as base-10 integer parsing computes. -/
def digitsToNat (ds : List Char) : Nat :=
  ds.foldl (fun acc c => acc * 10 + (c.toNat - 48)) 0

/-- Model of the version extraction on a file name: the leading digit run
parsed as a 64-bit integer, with `none` when there is no leading digit or the
value overflows the signed 64-bit range (both make the loop skip the
entry). -/
def parseVersion (name : List Char) : Option Int :=
  let ds := leadingDigits name
  if ds = [] then none
  else if digitsToNat ds < 2 ^ 63 then some ((digitsToNat ds : Nat) : Int) else none

/-- Oracle deciding which executor statement executions fail, indexed by the
migration version the statement concerns. -/
structure DBOracle where
  createFails : Bool
  upFails : Int → Bool
  insertFails : Int → Bool
  downFails : Int → Bool
  deleteFails : Int → Bool

/-- Observable database state: the version rows of the tracking table
(`tracked`), the trace of attempted up and down SQL executions (`upsRun`,
`downsRun`), the trace of successful ones (`upsOk`, `downsOk`), and a counter
of executor round-trips (Exec and GetVersions calls). -/
structure DBState where
  tracked : List Int
  upsRun : List Int
  upsOk : List Int
  downsRun : List Int
  downsOk : List Int
  calls : Nat
  deriving DecidableEq, Repr

/-- The migrator: its registry, the one-time latch, and the directory listing
and marker matchers that `setup` consumes. -/
structure IMigrator where
  Migrations : List Migration
  setupDone : Bool
  FS : List FileEntry
  UpKey : List Char → Bool
  DnKey : List Char → Bool

/-- Model of `createTable`: one Exec of the create-table statement; a false
result models the panic on a failed Exec. -/
def createTable (orc : DBOracle) (db : DBState) : DBState × Bool :=
  ({ db with calls := db.calls + 1 }, !orc.createFails)

/-- The directory loop of `setup`: per entry, skip silently unless the name
parses to a version; skip (after logging) when the file does not open;
otherwise parse the file, append a Migration to the registry exactly when the
parse judges it valid, and set the `setupDone` latch (the Go code sets the
latch at the end of every loop iteration that reached the open). -/
def setupLoop : List FileEntry → IMigrator → IMigrator
  | [], o => o
  | e :: es, o =>
    match parseVersion e.name with
    | none => setupLoop es o
    | some v =>
      match e.content with
      | none => setupLoop es o
      | some content =>
        let st := MigrationValid o.UpKey o.DnKey content
        let o1 := if st.isValid
          then { o with Migrations := o.Migrations ++ [⟨v, st.up, st.dn⟩] }
          else o
        setupLoop es { o1 with setupDone := true }

/-- Model of `setup`: early return behind the latch, then table creation and
the directory loop. A false Boolean result models a panic aborting the
call. -/
def setup (orc : DBOracle) (o : IMigrator) (db : DBState) : IMigrator × DBState × Bool :=
  if o.setupDone then (o, db, true)
  else
    let r := createTable orc db
    if r.2 then (setupLoop o.FS o, r.1, true)
    else (o, r.1, false)

/-- The registry entry a directory entry contributes: present exactly when
the name has a parseable version, the file opens, and the parse judges the
content valid. -/
def entryToMigration (k1 k2 : List Char → Bool) (e : FileEntry) : Option Migration :=
  match parseVersion e.name, e.content with
  | some v, some content =>
    let st := MigrationValid k1 k2 content
    if st.isValid then some ⟨v, st.up, st.dn⟩ else none
  | _, _ => none

/-- Whether a directory entry is a candidate the loop fully processes: its
name parses to a version and its file opens. -/
def isCandidate (e : FileEntry) : Bool :=
  (parseVersion e.name).isSome && e.content.isSome

theorem setupLoop_spec (es : List FileEntry) (o : IMigrator) :
    (setupLoop es o).Migrations
        = o.Migrations ++ es.filterMap (entryToMigration o.UpKey o.DnKey) ∧
    (setupLoop es o).setupDone = (o.setupDone || es.any isCandidate) ∧
    (setupLoop es o).UpKey = o.UpKey ∧ (setupLoop es o).DnKey = o.DnKey ∧
    (setupLoop es o).FS = o.FS := by
  induction es generalizing o with
  | nil => simp [setupLoop]
  | cons e es ih =>
    cases hpv : parseVersion e.name with
    | none =>
      have he : entryToMigration o.UpKey o.DnKey e = none := by
        simp [entryToMigration, hpv]
      have hc : isCandidate e = false := by
        simp [isCandidate, hpv]
      simpa [setupLoop, hpv, he, hc] using ih o
    | some v =>
      cases hce : e.content with
      | none =>
        have he : entryToMigration o.UpKey o.DnKey e = none := by
          simp [entryToMigration, hpv, hce]
        have hc : isCandidate e = false := by
          simp [isCandidate, hpv, hce]
        simpa [setupLoop, hpv, hce, he, hc] using ih o
      | some content =>
        have hc : isCandidate e = true := by
          simp [isCandidate, hpv, hce]
        by_cases hv : (MigrationValid o.UpKey o.DnKey content).isValid = true
        · have he : entryToMigration o.UpKey o.DnKey e
              = some ⟨v, (MigrationValid o.UpKey o.DnKey content).up,
                  (MigrationValid o.UpKey o.DnKey content).dn⟩ := by
            simp [entryToMigration, hpv, hce, hv]
          have := ih { o with
            Migrations := o.Migrations ++ [⟨v, (MigrationValid o.UpKey o.DnKey content).up,
              (MigrationValid o.UpKey o.DnKey content).dn⟩],
            setupDone := true }
          simpa [setupLoop, hpv, hce, hv, he, hc] using this
        · have he : entryToMigration o.UpKey o.DnKey e = none := by
            simp [entryToMigration, hpv, hce, hv]
          have := ih { o with setupDone := true }
          simpa [setupLoop, hpv, hce, hv, he, hc] using this

/-- Sample up-marker matcher used for concrete instances. -/
def sampleUpKey (l : List Char) : Bool := l.contains 'U'

/-- Sample down-marker matcher used for concrete instances. -/
def sampleDnKey (l : List Char) : Bool := l.contains 'D'

/-- Oracle on which every statement execution succeeds. -/
def noFailOracle : DBOracle :=
  ⟨false, fun _ => false, fun _ => false, fun _ => false, fun _ => false⟩

/-- The empty database: no tracked versions, no executions, no calls. -/
def dbEmpty : DBState := ⟨[], [], [], [], [], 0⟩

/-- An engine over a directory holding a single candidate file: its name
parses to version 1 but its content has no marker lines. -/
def engineInvalidFile : IMigrator :=
  ⟨[], false, [⟨['1'], some ['x', '\n']⟩], sampleUpKey, sampleDnKey⟩

/-- An engine over an empty directory. -/
def engineEmptyDir : IMigrator :=
  ⟨[], false, [], sampleUpKey, sampleDnKey⟩

/-- C3 claims the latch tracks valid files; on the code it tracks candidate
files. Concretely: a directory whose only file has a parseable version but no
marker lines yields a set latch together with an empty registry and zero
valid entries, contradicting the claimed equivalence. -/
theorem C3_counterexample :
    (setup noFailOracle engineInvalidFile dbEmpty).1.setupDone = true ∧
    (setup noFailOracle engineInvalidFile dbEmpty).1.Migrations = [] ∧
    engineInvalidFile.FS.filterMap (entryToMigration sampleUpKey sampleDnKey) = [] := by
  decide

/-- C3 amended: after a setup run from an unset latch (with table creation
succeeding), the latch is true exactly when the directory holds at least one
entry whose name has a parseable leading-digit version and whose file could
be opened — regardless of whether any such file passed the marker parse. -/
theorem C3_amended_latch_iff_candidate (orc : DBOracle) (o : IMigrator) (db : DBState)
    (hdone : o.setupDone = false) (hcf : orc.createFails = false) :
    (setup orc o db).1.setupDone = true ↔ ∃ e ∈ o.FS, isCandidate e = true := by
  rw [setup]
  simp only [hdone, Bool.false_eq_true, if_false, createTable, hcf, Bool.not_false, if_true]
  rw [(setupLoop_spec o.FS o).2.1, hdone]
  simp [List.any_eq_true]

theorem C3_amended_latch_iff_candidate_witness :
    (setup noFailOracle engineInvalidFile dbEmpty).1.setupDone = true ↔
      ∃ e ∈ engineInvalidFile.FS, isCandidate e = true :=
  C3_amended_latch_iff_candidate noFailOracle engineInvalidFile dbEmpty rfl rfl

/-- C6: after a setup run from an unset latch with table creation succeeding,
no error is raised, and the registry gains exactly the entries with a
parseable leading-digit version whose file opened and passed the two-marker
parse; in particular an incomplete file contributes nothing and leaves the
registry size unchanged. -/
theorem C6_registry_exact (orc : DBOracle) (o : IMigrator) (db : DBState)
    (hdone : o.setupDone = false) (hcf : orc.createFails = false) :
    (setup orc o db).2.2 = true ∧
    (setup orc o db).1.Migrations
      = o.Migrations ++ o.FS.filterMap (entryToMigration o.UpKey o.DnKey) := by
  rw [setup]
  simp only [hdone, Bool.false_eq_true, if_false, createTable, hcf, Bool.not_false, if_true]
  exact ⟨trivial, (setupLoop_spec o.FS o).1⟩

theorem C6_registry_exact_witness :
    (setup noFailOracle engineInvalidFile dbEmpty).2.2 = true ∧
    (setup noFailOracle engineInvalidFile dbEmpty).1.Migrations
      = engineInvalidFile.Migrations
        ++ engineInvalidFile.FS.filterMap
          (entryToMigration engineInvalidFile.UpKey engineInvalidFile.DnKey) :=
  C6_registry_exact noFailOracle engineInvalidFile dbEmpty rfl rfl

/-- C8 claims every setup call after a first successfully completed scan is a
no-op; on the code the latch is only set when the scan saw a candidate file.
Concretely: over an empty directory the first run completes successfully, yet
the second call performs another executor round-trip (table creation). -/
theorem C8_counterexample :
    (setup noFailOracle engineEmptyDir dbEmpty).2.2 = true ∧
    (setup noFailOracle
        (setup noFailOracle engineEmptyDir dbEmpty).1
        (setup noFailOracle engineEmptyDir dbEmpty).2.1).2.1.calls
      ≠ (setup noFailOracle engineEmptyDir dbEmpty).2.1.calls := by
  decide

/-- C8 amended: setup is lazy and idempotent once the latch is set: after a
first run over a directory containing at least one candidate entry (parseable
version, openable file), every later setup call succeeds and returns the
engine and the database completely unchanged — no executor calls and no
registry change. -/
theorem C8_amended_idempotent_after_candidate (orc : DBOracle) (o : IMigrator) (db : DBState)
    (hcf : orc.createFails = false)
    (hcand : o.FS.any isCandidate = true) :
    setup orc (setup orc o db).1 (setup orc o db).2.1
      = ((setup orc o db).1, (setup orc o db).2.1, true) := by
  have hdone : (setup orc o db).1.setupDone = true := by
    by_cases hd : o.setupDone
    · rw [setup]
      simp [hd]
    · rw [setup]
      simp only [hd, Bool.false_eq_true, if_false, createTable, hcf, Bool.not_false, if_true]
      rw [(setupLoop_spec o.FS o).2.1, hcand]
      simp
  rw [setup, hdone]
  simp

theorem C8_amended_idempotent_after_candidate_witness :
    setup noFailOracle
        (setup noFailOracle engineInvalidFile dbEmpty).1
        (setup noFailOracle engineInvalidFile dbEmpty).2.1
      = ((setup noFailOracle engineInvalidFile dbEmpty).1,
          (setup noFailOracle engineInvalidFile dbEmpty).2.1, true) :=
  C8_amended_idempotent_after_candidate noFailOracle engineInvalidFile dbEmpty rfl (by decide)

/-- Model of `migrated`: one GetVersions round-trip fetching the tracking
table fresh, then a linear scan for the migration's version. -/
def migrated (m : Migration) (db : DBState) : Bool × DBState :=
  (db.tracked.contains m.Version, { db with calls := db.calls + 1 })

/-- Model of `execUp`: Exec the migration's up-SQL, then Exec the
tracking-row insert; either Exec can fail per the oracle, and a failure
models the panic aborting the whole call (false result). -/
def execUp (orc : DBOracle) (m : Migration) (db : DBState) : DBState × Bool :=
  let db1 := { db with upsRun := db.upsRun ++ [m.Version], calls := db.calls + 1 }
  if orc.upFails m.Version then (db1, false)
  else
    let db2 := { db1 with upsOk := db1.upsOk ++ [m.Version], calls := db1.calls + 1 }
    if orc.insertFails m.Version then (db2, false)
    else ({ db2 with tracked := db2.tracked ++ [m.Version] }, true)

/-- Model of `execDown`: Exec the down-SQL, then Exec the tracking-row
delete, which removes every row carrying the version. -/
def execDown (orc : DBOracle) (m : Migration) (db : DBState) : DBState × Bool :=
  let db1 := { db with downsRun := db.downsRun ++ [m.Version], calls := db.calls + 1 }
  if orc.downFails m.Version then (db1, false)
  else
    let db2 := { db1 with downsOk := db1.downsOk ++ [m.Version], calls := db1.calls + 1 }
    if orc.deleteFails m.Version then (db2, false)
    else ({ db2 with tracked := db2.tracked.filter (fun x => !(x == m.Version)) }, true)

/-- Model of `sortAscending` (sort.Slice under version-less-than): a
permutation of the registry sorted by ascending version. -/
def sortAscending (ms : List Migration) : List Migration :=
  ms.insertionSort (fun a b => a.Version ≤ b.Version)

/-- Model of `sortDescending`: a permutation of the registry sorted by
descending version. -/
def sortDescending (ms : List Migration) : List Migration :=
  ms.insertionSort (fun a b => b.Version ≤ a.Version)

instance : IsTotal Migration (fun a b => a.Version ≤ b.Version) :=
  ⟨fun a b => le_total a.Version b.Version⟩

instance : IsTrans Migration (fun a b => a.Version ≤ b.Version) :=
  ⟨fun _ _ _ hab hbc => le_trans hab hbc⟩

instance : IsTotal Migration (fun a b => b.Version ≤ a.Version) :=
  ⟨fun a b => le_total b.Version a.Version⟩

instance : IsTrans Migration (fun a b => b.Version ≤ a.Version) :=
  ⟨fun _ _ _ hab hbc => le_trans hbc hab⟩

/-- The untargeted loop of `Up`: break once `completed` equals `steps`, skip
applied migrations (checked fresh per iteration), run `execUp` on unapplied
ones, and abort the whole call on a failure. -/
def upGo (orc : DBOracle) (steps : Int) : Nat → List Migration → DBState → DBState × Bool
  | _, [], db => (db, true)
  | completed, m :: ms, db =>
    if (completed : Int) = steps then (db, true)
    else
      let r := migrated m db
      if r.1 then upGo orc steps completed ms r.2
      else
        let r2 := execUp orc m r.2
        if r2.2 then upGo orc steps (completed + 1) ms r2.1
        else (r2.1, false)

/-- The untargeted loop of `Down`: break once `completed` equals `steps`,
run `execDown` on applied migrations, skip unapplied ones. -/
def downGo (orc : DBOracle) (steps : Int) : Nat → List Migration → DBState → DBState × Bool
  | _, [], db => (db, true)
  | completed, m :: ms, db =>
    if (completed : Int) = steps then (db, true)
    else
      let r := migrated m db
      if r.1 then
        let r2 := execDown orc m r.2
        if r2.2 then downGo orc steps (completed + 1) ms r2.1
        else (r2.1, false)
      else downGo orc steps completed ms r.2

/-- The targeted loop of `upVersion`: scan the registry in stored order for a
migration carrying the target version; short-circuit evaluation consults
`migrated` only on a version match, and on an unapplied match `execUp` runs
and the loop breaks. An applied match does not break the loop. -/
def upVersionGo (orc : DBOracle) (version : Int) : List Migration → DBState → DBState × Bool
  | [], db => (db, true)
  | m :: ms, db =>
    if m.Version = version then
      let r := migrated m db
      if r.1 then upVersionGo orc version ms r.2
      else execUp orc m r.2
    else upVersionGo orc version ms db

/-- The targeted loop of `downVersion`, mirror of `upVersionGo`. -/
def downVersionGo (orc : DBOracle) (version : Int) : List Migration → DBState → DBState × Bool
  | [], db => (db, true)
  | m :: ms, db =>
    if m.Version = version then
      let r := migrated m db
      if r.1 then execDown orc m r.2
      else downVersionGo orc version ms r.2
    else downVersionGo orc version ms db

/-- Model of `Up`: run setup (aborting if it aborts), then either the
version-targeted path or the ascending, step-bounded loop. -/
def IMigrator.Up (orc : DBOracle) (steps : Int) (version : Int) (o : IMigrator)
    (db : DBState) : IMigrator × DBState × Bool :=
  let s := setup orc o db
  if s.2.2 then
    if version ≠ 0 then
      let r := upVersionGo orc version s.1.Migrations s.2.1
      (s.1, r.1, r.2)
    else
      let o2 := { s.1 with Migrations := sortAscending s.1.Migrations }
      let r := upGo orc steps 0 o2.Migrations s.2.1
      (o2, r.1, r.2)
  else s

/-- Model of `Down`: run setup (aborting if it aborts), then either the
version-targeted path or the descending, step-bounded loop. -/
def IMigrator.Down (orc : DBOracle) (steps : Int) (version : Int) (o : IMigrator)
    (db : DBState) : IMigrator × DBState × Bool :=
  let s := setup orc o db
  if s.2.2 then
    if version ≠ 0 then
      let r := downVersionGo orc version s.1.Migrations s.2.1
      (s.1, r.1, r.2)
    else
      let o2 := { s.1 with Migrations := sortDescending s.1.Migrations }
      let r := downGo orc steps 0 o2.Migrations s.2.1
      (o2, r.1, r.2)
  else s

/-- The database state after a run of successful up executions `E` from `db`,
with `c` executor round-trips on the counter. -/
def applyUps (db : DBState) (E : List Int) (c : Nat) : DBState :=
  { db with
    tracked := db.tracked ++ E,
    upsRun := db.upsRun ++ E,
    upsOk := db.upsOk ++ E,
    calls := c }

/-- The database state after a run of successful down executions `E` from
`db`: the executed versions leave the tracking table. -/
def applyDowns (db : DBState) (E : List Int) (c : Nat) : DBState :=
  { db with
    tracked := db.tracked.filter (fun x => !(E.contains x)),
    downsRun := db.downsRun ++ E,
    downsOk := db.downsOk ++ E,
    calls := c }

theorem setup_calls_only (orc : DBOracle) (o : IMigrator) (db : DBState) :
    ∃ c, (setup orc o db).2.1 = { db with calls := c } := by
  by_cases hd : o.setupDone
  · exact ⟨db.calls, by simp [setup, hd]⟩
  · by_cases hc : orc.createFails
    · exact ⟨db.calls + 1, by simp [setup, hd, createTable, hc]⟩
    · exact ⟨db.calls + 1, by simp [setup, hd, createTable, hc]⟩

theorem upGo_new_ups (orc : DBOracle) (steps : Int) (completed : Nat) (ms : List Migration)
    (db : DBState) :
    ∃ E, (upGo orc steps completed ms db).1.upsRun = db.upsRun ++ E ∧
      E.Nodup ∧ ∀ v ∈ E, v ∉ db.tracked := by
  induction ms generalizing completed db with
  | nil => exact ⟨[], by simp [upGo], List.nodup_nil, by simp⟩
  | cons m ms ih =>
    by_cases hstop : (completed : Int) = steps
    · exact ⟨[], by simp [upGo, hstop], List.nodup_nil, by simp⟩
    · by_cases hmig : m.Version ∈ db.tracked
      · obtain ⟨E, hE, hnd, hdj⟩ := ih completed { db with calls := db.calls + 1 }
        exact ⟨E, by simpa [upGo, hstop, migrated, hmig] using hE, hnd, hdj⟩
      · by_cases hup : orc.upFails m.Version
        · refine ⟨[m.Version], ?_, List.nodup_singleton _, ?_⟩
          · simp [upGo, hstop, migrated, hmig, execUp, hup]
          · intro v hv
            rw [List.mem_singleton] at hv
            subst hv
            exact hmig
        · by_cases hins : orc.insertFails m.Version
          · refine ⟨[m.Version], ?_, List.nodup_singleton _, ?_⟩
            · simp [upGo, hstop, migrated, hmig, execUp, hup, hins]
            · intro v hv
              rw [List.mem_singleton] at hv
              subst hv
              exact hmig
          · obtain ⟨E, hE, hnd, hdj⟩ := ih (completed + 1)
              { db with
                tracked := db.tracked ++ [m.Version],
                upsRun := db.upsRun ++ [m.Version],
                upsOk := db.upsOk ++ [m.Version],
                calls := db.calls + 1 + 1 + 1 }
            refine ⟨m.Version :: E, ?_, ?_, ?_⟩
            · have hap : (db.upsRun ++ [m.Version]) ++ E = db.upsRun ++ m.Version :: E := by
                simp
              simpa [upGo, hstop, migrated, hmig, execUp, hup, hins, hap] using hE
            · refine List.nodup_cons.mpr ⟨?_, hnd⟩
              intro hmem
              have := hdj m.Version hmem
              simp at this
            · intro v hv
              rcases List.mem_cons.mp hv with h1 | h2
              · subst h1
                exact hmig
              · intro hmem
                exact hdj v h2 (by simp [hmem])

theorem downGo_new_downs (orc : DBOracle) (steps : Int) (completed : Nat) (ms : List Migration)
    (db : DBState) :
    ∃ E, (downGo orc steps completed ms db).1.downsRun = db.downsRun ++ E ∧
      E.Nodup ∧ ∀ v ∈ E, v ∈ db.tracked := by
  induction ms generalizing completed db with
  | nil => exact ⟨[], by simp [downGo], List.nodup_nil, by simp⟩
  | cons m ms ih =>
    by_cases hstop : (completed : Int) = steps
    · exact ⟨[], by simp [downGo, hstop], List.nodup_nil, by simp⟩
    · by_cases hmig : m.Version ∈ db.tracked
      · by_cases hdn : orc.downFails m.Version
        · refine ⟨[m.Version], ?_, List.nodup_singleton _, ?_⟩
          · simp [downGo, hstop, migrated, hmig, execDown, hdn]
          · intro v hv
            rw [List.mem_singleton] at hv
            subst hv
            exact hmig
        · by_cases hdel : orc.deleteFails m.Version
          · refine ⟨[m.Version], ?_, List.nodup_singleton _, ?_⟩
            · simp [downGo, hstop, migrated, hmig, execDown, hdn, hdel]
            · intro v hv
              rw [List.mem_singleton] at hv
              subst hv
              exact hmig
          · obtain ⟨E, hE, hnd, hdj⟩ := ih (completed + 1)
              { db with
                tracked := db.tracked.filter (fun x => !(x == m.Version)),
                downsRun := db.downsRun ++ [m.Version],
                downsOk := db.downsOk ++ [m.Version],
                calls := db.calls + 1 + 1 + 1 }
            refine ⟨m.Version :: E, ?_, ?_, ?_⟩
            · have hap : (db.downsRun ++ [m.Version]) ++ E = db.downsRun ++ m.Version :: E := by
                simp
              simpa [downGo, hstop, migrated, hmig, execDown, hdn, hdel, hap] using hE
            · refine List.nodup_cons.mpr ⟨?_, hnd⟩
              intro hmem
              have := hdj m.Version hmem
              simp [List.mem_filter] at this
            · intro v hv
              rcases List.mem_cons.mp hv with h1 | h2
              · subst h1
                exact hmig
              · have := hdj v h2
                simp only [List.mem_filter] at this
                exact this.1
      · obtain ⟨E, hE, hnd, hdj⟩ := ih completed { db with calls := db.calls + 1 }
        exact ⟨E, by simpa [downGo, hstop, migrated, hmig] using hE, hnd, hdj⟩

theorem upVersionGo_new_ups (orc : DBOracle) (version : Int) (ms : List Migration)
    (db : DBState) :
    ∃ E, (upVersionGo orc version ms db).1.upsRun = db.upsRun ++ E ∧
      E.Nodup ∧ ∀ v ∈ E, v ∉ db.tracked := by
  induction ms generalizing db with
  | nil => exact ⟨[], by simp [upVersionGo], List.nodup_nil, by simp⟩
  | cons m ms ih =>
    by_cases hv : m.Version = version
    · subst hv
      by_cases hmig : m.Version ∈ db.tracked
      · obtain ⟨E, hE, hnd, hdj⟩ := ih { db with calls := db.calls + 1 }
        exact ⟨E, by simpa [upVersionGo, migrated, hmig] using hE, hnd, hdj⟩
      · refine ⟨[m.Version], ?_, List.nodup_singleton _, ?_⟩
        · by_cases hup : orc.upFails m.Version
          · simp [upVersionGo, migrated, hmig, execUp, hup]
          · by_cases hins : orc.insertFails m.Version
            · simp [upVersionGo, migrated, hmig, execUp, hup, hins]
            · simp [upVersionGo, migrated, hmig, execUp, hup, hins]
        · intro v hvv
          rw [List.mem_singleton] at hvv
          subst hvv
          exact hmig
    · obtain ⟨E, hE, hnd, hdj⟩ := ih db
      exact ⟨E, by simpa [upVersionGo, hv] using hE, hnd, hdj⟩

theorem downVersionGo_new_downs (orc : DBOracle) (version : Int) (ms : List Migration)
    (db : DBState) :
    ∃ E, (downVersionGo orc version ms db).1.downsRun = db.downsRun ++ E ∧
      E.Nodup ∧ ∀ v ∈ E, v ∈ db.tracked := by
  induction ms generalizing db with
  | nil => exact ⟨[], by simp [downVersionGo], List.nodup_nil, by simp⟩
  | cons m ms ih =>
    by_cases hv : m.Version = version
    · subst hv
      by_cases hmig : m.Version ∈ db.tracked
      · refine ⟨[m.Version], ?_, List.nodup_singleton _, ?_⟩
        · by_cases hdn : orc.downFails m.Version
          · simp [downVersionGo, migrated, hmig, execDown, hdn]
          · by_cases hdel : orc.deleteFails m.Version
            · simp [downVersionGo, migrated, hmig, execDown, hdn, hdel]
            · simp [downVersionGo, migrated, hmig, execDown, hdn, hdel]
        · intro v hvv
          rw [List.mem_singleton] at hvv
          subst hvv
          exact hmig
      · obtain ⟨E, hE, hnd, hdj⟩ := ih { db with calls := db.calls + 1 }
        exact ⟨E, by simpa [downVersionGo, migrated, hmig] using hE, hnd, hdj⟩
    · obtain ⟨E, hE, hnd, hdj⟩ := ih db
      exact ⟨E, by simpa [downVersionGo, hv] using hE, hnd, hdj⟩

/-- C4: in every Up run, targeted or not, up-SQL is only ever executed for
versions absent from the applied set fetched at the moment of the check — the
newly attempted up versions avoid every initially tracked version and contain
no repeats (each successful execution inserts its version, so a repeat would
be a re-application of an applied version); symmetrically, every Down run
only ever executes down-SQL for versions present in the applied set at the
moment of the check. -/
theorem C4_up_unapplied_down_applied (orc : DBOracle) (steps : Int) (version : Int)
    (o : IMigrator) (db : DBState) :
    (∃ E, (IMigrator.Up orc steps version o db).2.1.upsRun = db.upsRun ++ E ∧
      E.Nodup ∧ ∀ v ∈ E, v ∉ db.tracked) ∧
    (∃ E, (IMigrator.Down orc steps version o db).2.1.downsRun = db.downsRun ++ E ∧
      E.Nodup ∧ ∀ v ∈ E, v ∈ db.tracked) := by
  obtain ⟨c, hc⟩ := setup_calls_only orc o db
  constructor
  · by_cases hs : (setup orc o db).2.2 = true
    · by_cases hv : version ≠ 0
      · obtain ⟨E, hE, hnd, hdj⟩ := upVersionGo_new_ups orc version
          (setup orc o db).1.Migrations { db with calls := c }
        exact ⟨E, by simpa [IMigrator.Up, hs, hv, hc] using hE, hnd, hdj⟩
      · have hv0 : version = 0 := not_not.mp hv
        obtain ⟨E, hE, hnd, hdj⟩ := upGo_new_ups orc steps 0
          (sortAscending (setup orc o db).1.Migrations) { db with calls := c }
        exact ⟨E, by simpa [IMigrator.Up, hs, hv0, hc] using hE, hnd, hdj⟩
    · refine ⟨[], ?_, List.nodup_nil, by simp⟩
      have hout : (IMigrator.Up orc steps version o db).2.1 = (setup orc o db).2.1 := by
        simp [IMigrator.Up, hs]
      rw [hout, hc]
      simp
  · by_cases hs : (setup orc o db).2.2 = true
    · by_cases hv : version ≠ 0
      · obtain ⟨E, hE, hnd, hdj⟩ := downVersionGo_new_downs orc version
          (setup orc o db).1.Migrations { db with calls := c }
        exact ⟨E, by simpa [IMigrator.Down, hs, hv, hc] using hE, hnd, hdj⟩
      · have hv0 : version = 0 := not_not.mp hv
        obtain ⟨E, hE, hnd, hdj⟩ := downGo_new_downs orc steps 0
          (sortDescending (setup orc o db).1.Migrations) { db with calls := c }
        exact ⟨E, by simpa [IMigrator.Down, hs, hv0, hc] using hE, hnd, hdj⟩
    · refine ⟨[], ?_, List.nodup_nil, by simp⟩
      have hout : (IMigrator.Down orc steps version o db).2.1 = (setup orc o db).2.1 := by
        simp [IMigrator.Down, hs]
      rw [hout, hc]
      simp


theorem applyUps_nil (db : DBState) : applyUps db [] db.calls = db := by
  simp [applyUps]

theorem applyUps_calls_fold (db : DBState) (k : Nat) (E : List Int) (c : Nat) :
    applyUps { db with calls := k } E c = applyUps db E c := by
  simp [applyUps]

theorem applyUps_cons (db : DBState) (v : Int) (E : List Int) (k c : Nat) :
    applyUps { db with
      tracked := db.tracked ++ [v],
      upsRun := db.upsRun ++ [v],
      upsOk := db.upsOk ++ [v],
      calls := k } E c = applyUps db (v :: E) c := by
  simp [applyUps]

theorem applyDowns_nil (db : DBState) : applyDowns db [] db.calls = db := by
  simp [applyDowns]

theorem applyDowns_calls_fold (db : DBState) (k : Nat) (E : List Int) (c : Nat) :
    applyDowns { db with calls := k } E c = applyDowns db E c := by
  simp [applyDowns]

theorem applyDowns_cons (db : DBState) (v : Int) (E : List Int) (k c : Nat) :
    applyDowns { db with
      tracked := db.tracked.filter (fun x => !(x == v)),
      downsRun := db.downsRun ++ [v],
      downsOk := db.downsOk ++ [v],
      calls := k } E c = applyDowns db (v :: E) c := by
  have hfil : db.tracked.filter (fun x => !(E.contains x) && !(x == v))
      = db.tracked.filter (fun x => !((v :: E).contains x)) := by
    apply List.filter_congr
    intro x _
    rw [List.contains_cons, Bool.not_or, Bool.and_comm]
  simp only [applyDowns, List.filter_filter]
  rw [hfil]
  simp

theorem upGo_spec_nofail (orc : DBOracle) (steps : Int) (completed : Nat) (ms : List Migration)
    (db : DBState)
    (hnd : (ms.map Migration.Version).Nodup)
    (hnf : ∀ m ∈ ms, orc.upFails m.Version = false ∧ orc.insertFails m.Version = false)
    (hcomp : 0 ≤ steps → completed ≤ steps.toNat) :
    ∃ c, upGo orc steps completed ms db =
      (applyUps db
        (((ms.filter fun x => !(db.tracked.contains x.Version)).map Migration.Version).take
          (if 0 ≤ steps then steps.toNat - completed
            else ((ms.filter fun x => !(db.tracked.contains x.Version)).map
              Migration.Version).length)) c, true) := by
  induction ms generalizing completed db with
  | nil =>
    refine ⟨db.calls, ?_⟩
    simp [upGo, applyUps]
  | cons m ms ih =>
    have hndtail : (ms.map Migration.Version).Nodup := by
      simp only [List.map_cons, List.nodup_cons] at hnd
      exact hnd.2
    have hvnotin : m.Version ∉ ms.map Migration.Version := by
      simp only [List.map_cons, List.nodup_cons] at hnd
      exact hnd.1
    have hnftail : ∀ x ∈ ms, orc.upFails x.Version = false ∧ orc.insertFails x.Version = false :=
      fun x hx => hnf x (by simp [hx])
    by_cases hstop : (completed : Int) = steps
    · refine ⟨db.calls, ?_⟩
      have h0 : (0 : Int) ≤ steps := by omega
      have hlim : steps.toNat - completed = 0 := by omega
      simp [upGo, hstop, h0, hlim, applyUps]
    · by_cases hmig : m.Version ∈ db.tracked
      · have hmigb : db.tracked.contains m.Version = true := by simpa using hmig
        obtain ⟨c, hc⟩ := ih completed { db with calls := db.calls + 1 } hndtail hnftail hcomp
        refine ⟨c, ?_⟩
        have hgo : upGo orc steps completed (m :: ms) db
            = upGo orc steps completed ms { db with calls := db.calls + 1 } := by
          simp [upGo, hstop, migrated, hmig]
        rw [hgo, hc, applyUps_calls_fold]
        simp [List.filter_cons, hmig]
      · have hmigb : db.tracked.contains m.Version = false := by simpa using hmig
        have hup : orc.upFails m.Version = false := (hnf m (by simp)).1
        have hins : orc.insertFails m.Version = false := (hnf m (by simp)).2
        have hcomp2 : 0 ≤ steps → completed + 1 ≤ steps.toNat := by
          intro h0
          have := hcomp h0
          omega
        obtain ⟨c, hc⟩ := ih (completed + 1)
          { db with
            tracked := db.tracked ++ [m.Version],
            upsRun := db.upsRun ++ [m.Version],
            upsOk := db.upsOk ++ [m.Version],
            calls := db.calls + 1 + 1 + 1 } hndtail hnftail hcomp2
        refine ⟨c, ?_⟩
        have hgo : upGo orc steps completed (m :: ms) db
            = upGo orc steps (completed + 1) ms
              { db with
                tracked := db.tracked ++ [m.Version],
                upsRun := db.upsRun ++ [m.Version],
                upsOk := db.upsOk ++ [m.Version],
                calls := db.calls + 1 + 1 + 1 } := by
          simp [upGo, hstop, migrated, hmig, execUp, hup, hins]
        have hfc : ms.filter (fun x => !((db.tracked ++ [m.Version]).contains x.Version))
            = ms.filter (fun x => !(db.tracked.contains x.Version)) := by
          apply List.filter_congr
          intro x hx
          have hxv : ¬ x.Version = m.Version := by
            intro he
            apply hvnotin
            rw [← he]
            exact List.mem_map_of_mem Migration.Version hx
          simp [hxv]
        rw [hgo, hc]
        have hmain : applyUps
            { db with
              tracked := db.tracked ++ [m.Version],
              upsRun := db.upsRun ++ [m.Version],
              upsOk := db.upsOk ++ [m.Version],
              calls := db.calls + 1 + 1 + 1 }
            (((ms.filter fun x => !((db.tracked ++ [m.Version]).contains x.Version)).map
              Migration.Version).take
              (if 0 ≤ steps then steps.toNat - (completed + 1)
                else ((ms.filter fun x =>
                  !((db.tracked ++ [m.Version]).contains x.Version)).map
                    Migration.Version).length)) c
            = applyUps db
              ((((m :: ms).filter fun x => !(db.tracked.contains x.Version)).map
                Migration.Version).take
                (if 0 ≤ steps then steps.toNat - completed
                  else (((m :: ms).filter fun x => !(db.tracked.contains x.Version)).map
                    Migration.Version).length)) c := by
          rw [hfc, applyUps_cons]
          have hhead : (m :: ms).filter (fun x => !(db.tracked.contains x.Version))
              = m :: ms.filter (fun x => !(db.tracked.contains x.Version)) := by
            simp [List.filter_cons, hmig]
          rw [hhead]
          by_cases h0 : (0 : Int) ≤ steps
          · have hlim : steps.toNat - completed = (steps.toNat - (completed + 1)) + 1 := by
              have := hcomp h0
              omega
            simp [h0, hlim]
          · simp [h0]
        exact congrArg (fun z => (z, true)) hmain

theorem downGo_spec_nofail (orc : DBOracle) (steps : Int) (completed : Nat) (ms : List Migration)
    (db : DBState)
    (hnd : (ms.map Migration.Version).Nodup)
    (hnf : ∀ m ∈ ms, orc.downFails m.Version = false ∧ orc.deleteFails m.Version = false)
    (hcomp : 0 ≤ steps → completed ≤ steps.toNat) :
    ∃ c, downGo orc steps completed ms db =
      (applyDowns db
        (((ms.filter fun x => db.tracked.contains x.Version).map Migration.Version).take
          (if 0 ≤ steps then steps.toNat - completed
            else ((ms.filter fun x => db.tracked.contains x.Version).map
              Migration.Version).length)) c, true) := by
  induction ms generalizing completed db with
  | nil =>
    refine ⟨db.calls, ?_⟩
    simp [downGo, applyDowns]
  | cons m ms ih =>
    have hndtail : (ms.map Migration.Version).Nodup := by
      simp only [List.map_cons, List.nodup_cons] at hnd
      exact hnd.2
    have hvnotin : m.Version ∉ ms.map Migration.Version := by
      simp only [List.map_cons, List.nodup_cons] at hnd
      exact hnd.1
    have hnftail : ∀ x ∈ ms, orc.downFails x.Version = false ∧ orc.deleteFails x.Version = false :=
      fun x hx => hnf x (by simp [hx])
    by_cases hstop : (completed : Int) = steps
    · refine ⟨db.calls, ?_⟩
      have h0 : (0 : Int) ≤ steps := by omega
      have hlim : steps.toNat - completed = 0 := by omega
      simp [downGo, hstop, h0, hlim, applyDowns]
    · by_cases hmig : m.Version ∈ db.tracked
      · have hdn : orc.downFails m.Version = false := (hnf m (by simp)).1
        have hdel : orc.deleteFails m.Version = false := (hnf m (by simp)).2
        have hcomp2 : 0 ≤ steps → completed + 1 ≤ steps.toNat := by
          intro h0
          have := hcomp h0
          omega
        obtain ⟨c, hc⟩ := ih (completed + 1)
          { db with
            tracked := db.tracked.filter (fun x => !(x == m.Version)),
            downsRun := db.downsRun ++ [m.Version],
            downsOk := db.downsOk ++ [m.Version],
            calls := db.calls + 1 + 1 + 1 } hndtail hnftail hcomp2
        refine ⟨c, ?_⟩
        have hgo : downGo orc steps completed (m :: ms) db
            = downGo orc steps (completed + 1) ms
              { db with
                tracked := db.tracked.filter (fun x => !(x == m.Version)),
                downsRun := db.downsRun ++ [m.Version],
                downsOk := db.downsOk ++ [m.Version],
                calls := db.calls + 1 + 1 + 1 } := by
          simp [downGo, hstop, migrated, hmig, execDown, hdn, hdel]
        have hfc : ms.filter
              (fun x => (db.tracked.filter (fun y => !(y == m.Version))).contains x.Version)
            = ms.filter (fun x => db.tracked.contains x.Version) := by
          apply List.filter_congr
          intro x hx
          have hxv : ¬ x.Version = m.Version := by
            intro he
            apply hvnotin
            rw [← he]
            exact List.mem_map_of_mem Migration.Version hx
          simp [List.mem_filter, hxv]
        rw [hgo, hc]
        have hmain : applyDowns
            { db with
              tracked := db.tracked.filter (fun x => !(x == m.Version)),
              downsRun := db.downsRun ++ [m.Version],
              downsOk := db.downsOk ++ [m.Version],
              calls := db.calls + 1 + 1 + 1 }
            (((ms.filter fun x =>
                (db.tracked.filter (fun y => !(y == m.Version))).contains x.Version).map
              Migration.Version).take
              (if 0 ≤ steps then steps.toNat - (completed + 1)
                else ((ms.filter fun x =>
                  (db.tracked.filter (fun y => !(y == m.Version))).contains x.Version).map
                    Migration.Version).length)) c
            = applyDowns db
              ((((m :: ms).filter fun x => db.tracked.contains x.Version).map
                Migration.Version).take
                (if 0 ≤ steps then steps.toNat - completed
                  else (((m :: ms).filter fun x => db.tracked.contains x.Version).map
                    Migration.Version).length)) c := by
          rw [hfc, applyDowns_cons]
          have hhead : (m :: ms).filter (fun x => db.tracked.contains x.Version)
              = m :: ms.filter (fun x => db.tracked.contains x.Version) := by
            simp [List.filter_cons, hmig]
          rw [hhead]
          by_cases h0 : (0 : Int) ≤ steps
          · have hlim : steps.toNat - completed = (steps.toNat - (completed + 1)) + 1 := by
              have := hcomp h0
              omega
            simp [h0, hlim]
          · simp [h0]
        exact congrArg (fun z => (z, true)) hmain
      · obtain ⟨c, hc⟩ := ih completed { db with calls := db.calls + 1 } hndtail hnftail hcomp
        refine ⟨c, ?_⟩
        have hgo : downGo orc steps completed (m :: ms) db
            = downGo orc steps completed ms { db with calls := db.calls + 1 } := by
          simp [downGo, hstop, migrated, hmig]
        rw [hgo, hc, applyDowns_calls_fold]
        simp [List.filter_cons, hmig]

theorem setup_done_noop (orc : DBOracle) (o : IMigrator) (db : DBState)
    (hdone : o.setupDone = true) : setup orc o db = (o, db, true) := by
  simp [setup, hdone]

theorem upGo_zero (orc : DBOracle) (ms : List Migration) (db : DBState) :
    upGo orc 0 0 ms db = (db, true) := by
  cases ms with
  | nil => rfl
  | cons m ms => simp [upGo]

theorem downGo_zero (orc : DBOracle) (ms : List Migration) (db : DBState) :
    downGo orc 0 0 ms db = (db, true) := by
  cases ms with
  | nil => rfl
  | cons m ms => simp [downGo]

/-- C10: for untargeted runs, steps = 0 executes no migration at all — Up and
Down return with the database exactly unchanged (no SQL run, tracking table
untouched, not even a version query issued) — and every negative steps value,
not only -1, behaves as unlimited: Up applies every pending migration in the
ascending order and Down reverts every applied migration in the descending
order. -/
theorem C10_zero_noop_negative_unlimited (orc : DBOracle) (steps : Int)
    (o : IMigrator) (db : DBState)
    (hdone : o.setupDone = true)
    (hnd : (o.Migrations.map Migration.Version).Nodup)
    (hnfU : ∀ m ∈ o.Migrations, orc.upFails m.Version = false ∧ orc.insertFails m.Version = false)
    (hnfD : ∀ m ∈ o.Migrations,
      orc.downFails m.Version = false ∧ orc.deleteFails m.Version = false)
    (hneg : steps < 0) :
    IMigrator.Up orc 0 0 o db
        = ({ o with Migrations := sortAscending o.Migrations }, db, true) ∧
    IMigrator.Down orc 0 0 o db
        = ({ o with Migrations := sortDescending o.Migrations }, db, true) ∧
    (∃ c, IMigrator.Up orc steps 0 o db
      = ({ o with Migrations := sortAscending o.Migrations },
          applyUps db (((sortAscending o.Migrations).filter
            (fun x => !(db.tracked.contains x.Version))).map Migration.Version) c, true)) ∧
    (∃ c, IMigrator.Down orc steps 0 o db
      = ({ o with Migrations := sortDescending o.Migrations },
          applyDowns db (((sortDescending o.Migrations).filter
            (fun x => db.tracked.contains x.Version)).map Migration.Version) c, true)) := by
  have hsetup := setup_done_noop orc o db hdone
  have hpermA : (sortAscending o.Migrations).Perm o.Migrations :=
    List.perm_insertionSort _ _
  have hpermD : (sortDescending o.Migrations).Perm o.Migrations :=
    List.perm_insertionSort _ _
  have hns : (0 : Int) ≤ steps → False := by omega
  refine ⟨?_, ?_, ?_, ?_⟩
  · simp [IMigrator.Up, hsetup, upGo_zero]
  · simp [IMigrator.Down, hsetup, downGo_zero]
  · have hndA : ((sortAscending o.Migrations).map Migration.Version).Nodup :=
      ((hpermA.map Migration.Version).nodup_iff).mpr hnd
    have hnfA : ∀ m ∈ sortAscending o.Migrations,
        orc.upFails m.Version = false ∧ orc.insertFails m.Version = false :=
      fun m hm => hnfU m (hpermA.mem_iff.mp hm)
    obtain ⟨c, hc⟩ := upGo_spec_nofail orc steps 0 (sortAscending o.Migrations) db hndA hnfA
      (fun h => absurd h hns)
    rw [if_neg hns, List.take_length] at hc
    refine ⟨c, ?_⟩
    simp [IMigrator.Up, hsetup, hc]
  · have hndD : ((sortDescending o.Migrations).map Migration.Version).Nodup :=
      ((hpermD.map Migration.Version).nodup_iff).mpr hnd
    have hnfDD : ∀ m ∈ sortDescending o.Migrations,
        orc.downFails m.Version = false ∧ orc.deleteFails m.Version = false :=
      fun m hm => hnfD m (hpermD.mem_iff.mp hm)
    obtain ⟨c, hc⟩ := downGo_spec_nofail orc steps 0 (sortDescending o.Migrations) db hndD hnfDD
      (fun h => absurd h hns)
    rw [if_neg hns, List.take_length] at hc
    refine ⟨c, ?_⟩
    simp [IMigrator.Down, hsetup, hc]

/-- A concrete migration with version 1. -/
def mig1 : Migration := ⟨1, ['a'], ['b']⟩

/-- A concrete migration with version 2. -/
def mig2 : Migration := ⟨2, ['c'], ['d']⟩

/-- An engine whose setup already ran, holding versions 2 and 1 out of
order. -/
def engineTwo : IMigrator := ⟨[mig2, mig1], true, [], sampleUpKey, sampleDnKey⟩

/-- A database where version 1 is already applied. -/
def dbTracked1 : DBState := ⟨[1], [], [], [], [], 0⟩

theorem C10_zero_noop_negative_unlimited_witness :
    IMigrator.Up noFailOracle 0 0 engineTwo dbTracked1
        = ({ engineTwo with Migrations := sortAscending engineTwo.Migrations },
            dbTracked1, true) ∧
    IMigrator.Down noFailOracle 0 0 engineTwo dbTracked1
        = ({ engineTwo with Migrations := sortDescending engineTwo.Migrations },
            dbTracked1, true) ∧
    (∃ c, IMigrator.Up noFailOracle (-2) 0 engineTwo dbTracked1
      = ({ engineTwo with Migrations := sortAscending engineTwo.Migrations },
          applyUps dbTracked1 (((sortAscending engineTwo.Migrations).filter
            (fun x => !(dbTracked1.tracked.contains x.Version))).map Migration.Version) c,
          true)) ∧
    (∃ c, IMigrator.Down noFailOracle (-2) 0 engineTwo dbTracked1
      = ({ engineTwo with Migrations := sortDescending engineTwo.Migrations },
          applyDowns dbTracked1 (((sortDescending engineTwo.Migrations).filter
            (fun x => dbTracked1.tracked.contains x.Version)).map Migration.Version) c,
          true)) :=
  C10_zero_noop_negative_unlimited noFailOracle (-2) engineTwo dbTracked1 rfl
    (by decide) (by decide) (by decide) (by decide)

/-- C1: for a registry with pairwise-distinct versions, an untargeted
`Up(K, 0)` with K at least 0 executes the up-SQL of exactly
min(K, pendingCount) migrations — the first K of the unapplied migrations
taken in ascending version order — and with steps = -1 it executes all of
them: the executed list is the corresponding initial segment of the pending
list, which is a permutation of the unapplied registry migrations and
strictly ascending in version. -/
theorem C1_up_steps_min_pending (orc : DBOracle) (steps : Int) (o : IMigrator) (db : DBState)
    (hdone : o.setupDone = true)
    (hnd : (o.Migrations.map Migration.Version).Nodup)
    (hnf : ∀ m ∈ o.Migrations, orc.upFails m.Version = false ∧ orc.insertFails m.Version = false)
    (_hsteps : 0 ≤ steps ∨ steps = -1) :
    (∃ c, IMigrator.Up orc steps 0 o db
      = ({ o with Migrations := sortAscending o.Migrations },
          applyUps db
            ((((sortAscending o.Migrations).filter
                (fun x => !(db.tracked.contains x.Version))).map Migration.Version).take
              (if 0 ≤ steps then steps.toNat
                else (((sortAscending o.Migrations).filter
                  (fun x => !(db.tracked.contains x.Version))).map Migration.Version).length))
            c, true)) ∧
    ((sortAscending o.Migrations).filter (fun x => !(db.tracked.contains x.Version))).Perm
      (o.Migrations.filter (fun x => !(db.tracked.contains x.Version))) ∧
    List.Pairwise (fun a b => a.Version < b.Version)
      ((sortAscending o.Migrations).filter (fun x => !(db.tracked.contains x.Version))) ∧
    (0 ≤ steps →
      ((((sortAscending o.Migrations).filter
          (fun x => !(db.tracked.contains x.Version))).map Migration.Version).take
        steps.toNat).length
        = min steps.toNat
            (o.Migrations.filter (fun x => !(db.tracked.contains x.Version))).length) := by
  have hsetup := setup_done_noop orc o db hdone
  have hperm : (sortAscending o.Migrations).Perm o.Migrations := List.perm_insertionSort _ _
  have hndA : ((sortAscending o.Migrations).map Migration.Version).Nodup :=
    ((hperm.map Migration.Version).nodup_iff).mpr hnd
  have hnfA : ∀ m ∈ sortAscending o.Migrations,
      orc.upFails m.Version = false ∧ orc.insertFails m.Version = false :=
    fun m hm => hnf m (hperm.mem_iff.mp hm)
  have hpermFil := hperm.filter (fun x => !(db.tracked.contains x.Version))
  refine ⟨?_, hpermFil, ?_, ?_⟩
  · obtain ⟨c, hc⟩ := upGo_spec_nofail orc steps 0 (sortAscending o.Migrations) db hndA hnfA
      (fun _ => Nat.zero_le _)
    rw [Nat.sub_zero] at hc
    refine ⟨c, ?_⟩
    simp [IMigrator.Up, hsetup, hc]
  · have hsorted : List.Pairwise (fun a b => a.Version ≤ b.Version)
        (sortAscending o.Migrations) := List.sorted_insertionSort _ _
    have hle : List.Pairwise (fun a b => a.Version ≤ b.Version)
        ((sortAscending o.Migrations).filter (fun x => !(db.tracked.contains x.Version))) :=
      List.Pairwise.sublist (List.filter_sublist _) hsorted
    have hsubmap : (((sortAscending o.Migrations).filter
        (fun x => !(db.tracked.contains x.Version))).map Migration.Version).Sublist
        ((sortAscending o.Migrations).map Migration.Version) :=
      (List.filter_sublist _).map _
    have hndF := List.Nodup.sublist hsubmap hndA
    have hne := List.pairwise_map.mp hndF
    refine (List.Pairwise.imp ?_ (hle.and hne))
    intro a b h
    exact lt_of_le_of_ne h.1 h.2
  · intro h0
    rw [List.length_take, List.length_map, hpermFil.length_eq]

theorem C1_up_steps_min_pending_witness :
    (∃ c, IMigrator.Up noFailOracle 1 0 engineTwo dbTracked1
      = ({ engineTwo with Migrations := sortAscending engineTwo.Migrations },
          applyUps dbTracked1
            ((((sortAscending engineTwo.Migrations).filter
                (fun x => !(dbTracked1.tracked.contains x.Version))).map Migration.Version).take
              (if 0 ≤ (1 : Int) then (1 : Int).toNat
                else (((sortAscending engineTwo.Migrations).filter
                  (fun x => !(dbTracked1.tracked.contains x.Version))).map
                    Migration.Version).length))
            c, true)) ∧
    ((sortAscending engineTwo.Migrations).filter
        (fun x => !(dbTracked1.tracked.contains x.Version))).Perm
      (engineTwo.Migrations.filter (fun x => !(dbTracked1.tracked.contains x.Version))) ∧
    List.Pairwise (fun a b => a.Version < b.Version)
      ((sortAscending engineTwo.Migrations).filter
        (fun x => !(dbTracked1.tracked.contains x.Version))) ∧
    (0 ≤ (1 : Int) →
      ((((sortAscending engineTwo.Migrations).filter
          (fun x => !(dbTracked1.tracked.contains x.Version))).map Migration.Version).take
        (1 : Int).toNat).length
        = min (1 : Int).toNat
            (engineTwo.Migrations.filter
              (fun x => !(dbTracked1.tracked.contains x.Version))).length) :=
  C1_up_steps_min_pending noFailOracle 1 engineTwo dbTracked1 rfl
    (by decide) (by decide) (Or.inl (by decide))

theorem upVersionGo_spec (orc : DBOracle) (version : Int) (ms : List Migration) (db : DBState)
    (hnd : (ms.map Migration.Version).Nodup)
    (hnf : orc.upFails version = false ∧ orc.insertFails version = false) :
    ((∀ m ∈ ms, ¬ m.Version = version) → upVersionGo orc version ms db = (db, true)) ∧
    ((∃ m ∈ ms, m.Version = version) → version ∈ db.tracked →
      ∃ c, upVersionGo orc version ms db = ({ db with calls := c }, true)) ∧
    ((∃ m ∈ ms, m.Version = version) → version ∉ db.tracked →
      ∃ c, upVersionGo orc version ms db = (applyUps db [version] c, true)) := by
  induction ms generalizing db with
  | nil =>
    refine ⟨fun _ => rfl, fun h _ => absurd h (by simp), fun h _ => absurd h (by simp)⟩
  | cons m ms ih =>
    have hndtail : (ms.map Migration.Version).Nodup := by
      simp only [List.map_cons, List.nodup_cons] at hnd
      exact hnd.2
    have hvnotin : m.Version ∉ ms.map Migration.Version := by
      simp only [List.map_cons, List.nodup_cons] at hnd
      exact hnd.1
    by_cases hv : m.Version = version
    · have hnotail : ∀ x ∈ ms, ¬ x.Version = version := by
        intro x hx he
        apply hvnotin
        rw [hv, ← he]
        exact List.mem_map_of_mem Migration.Version hx
      refine ⟨fun h => absurd hv (h m (by simp)), fun _ hmem => ?_, fun _ hmem => ?_⟩
      · have hmig : m.Version ∈ db.tracked := by rw [hv]; exact hmem
        have htail := (ih { db with calls := db.calls + 1 } hndtail).1 hnotail
        refine ⟨db.calls + 1, ?_⟩
        simp only [upVersionGo, hv]
        simp [migrated, hmig, htail]
      · have hmig : m.Version ∉ db.tracked := by rw [hv]; exact hmem
        refine ⟨db.calls + 1 + 1 + 1, ?_⟩
        simp only [upVersionGo, hv]
        simp [migrated, hv, hmem, execUp, hnf.1, hnf.2, applyUps]
    · have hstep : ∀ dbx, upVersionGo orc version (m :: ms) dbx = upVersionGo orc version ms dbx :=
        fun dbx => by simp [upVersionGo, hv]
      refine ⟨?_, ?_, ?_⟩
      · intro h
        rw [hstep]
        exact (ih db hndtail).1 (fun x hx => h x (by simp [hx]))
      · intro h hmem
        have hex : ∃ x ∈ ms, x.Version = version := by
          rcases h with ⟨x, hx, hxv⟩
          rcases List.mem_cons.mp hx with h1 | h2
          · exact absurd (h1 ▸ hxv) hv
          · exact ⟨x, h2, hxv⟩
        obtain ⟨c, hc⟩ := (ih db hndtail).2.1 hex hmem
        exact ⟨c, by rw [hstep]; exact hc⟩
      · intro h hmem
        have hex : ∃ x ∈ ms, x.Version = version := by
          rcases h with ⟨x, hx, hxv⟩
          rcases List.mem_cons.mp hx with h1 | h2
          · exact absurd (h1 ▸ hxv) hv
          · exact ⟨x, h2, hxv⟩
        obtain ⟨c, hc⟩ := (ih db hndtail).2.2 hex hmem
        exact ⟨c, by rw [hstep]; exact hc⟩

/-- C5: for a nonzero target version over a registry with pairwise-distinct
versions, `Up(steps, version)` ignores steps and executes at most the single
registry migration carrying the target version: when the target is present
and unapplied exactly its up-SQL runs and its row is inserted (no other
migration is touched or required), and when the target is absent from the
registry or already applied the database is untouched beyond the version
queries of the scan. -/
theorem C5_up_targeted_single (orc : DBOracle) (steps : Int) (version : Int) (o : IMigrator)
    (db : DBState)
    (hdone : o.setupDone = true)
    (hv : ¬ version = 0)
    (hnd : (o.Migrations.map Migration.Version).Nodup)
    (hnf : orc.upFails version = false ∧ orc.insertFails version = false) :
    ((∀ m ∈ o.Migrations, ¬ m.Version = version) →
        IMigrator.Up orc steps version o db = (o, db, true)) ∧
    ((∃ m ∈ o.Migrations, m.Version = version) → version ∈ db.tracked →
        ∃ c, IMigrator.Up orc steps version o db = (o, { db with calls := c }, true)) ∧
    ((∃ m ∈ o.Migrations, m.Version = version) → version ∉ db.tracked →
        ∃ c, IMigrator.Up orc steps version o db = (o, applyUps db [version] c, true)) := by
  have hsetup := setup_done_noop orc o db hdone
  have hspec := upVersionGo_spec orc version o.Migrations db hnd hnf
  have hups : IMigrator.Up orc steps version o db
      = (o, (upVersionGo orc version o.Migrations db).1,
          (upVersionGo orc version o.Migrations db).2) := by
    simp [IMigrator.Up, hsetup, hv]
  refine ⟨?_, ?_, ?_⟩
  · intro h
    rw [hups, hspec.1 h]
  · intro h hmem
    obtain ⟨c, hc⟩ := hspec.2.1 h hmem
    exact ⟨c, by rw [hups, hc]⟩
  · intro h hmem
    obtain ⟨c, hc⟩ := hspec.2.2 h hmem
    exact ⟨c, by rw [hups, hc]⟩

theorem C5_up_targeted_single_witness :
    ((∀ m ∈ engineTwo.Migrations, ¬ m.Version = 2) →
        IMigrator.Up noFailOracle 7 2 engineTwo dbTracked1 = (engineTwo, dbTracked1, true)) ∧
    ((∃ m ∈ engineTwo.Migrations, m.Version = 2) → (2 : Int) ∈ dbTracked1.tracked →
        ∃ c, IMigrator.Up noFailOracle 7 2 engineTwo dbTracked1
          = (engineTwo, { dbTracked1 with calls := c }, true)) ∧
    ((∃ m ∈ engineTwo.Migrations, m.Version = 2) → (2 : Int) ∉ dbTracked1.tracked →
        ∃ c, IMigrator.Up noFailOracle 7 2 engineTwo dbTracked1
          = (engineTwo, applyUps dbTracked1 [2] c, true)) :=
  C5_up_targeted_single noFailOracle 7 2 engineTwo dbTracked1 rfl
    (by decide) (by decide) (by decide)

theorem upGo_spec_fail (orc : DBOracle) (steps : Int) (completed : Nat) (ms : List Migration)
    (db : DBState) (good rest : List Migration) (mj : Migration)
    (hnd : (ms.map Migration.Version).Nodup)
    (hpend : ms.filter (fun x => !(db.tracked.contains x.Version)) = good ++ mj :: rest)
    (hgood : ∀ m ∈ good, orc.upFails m.Version = false ∧ orc.insertFails m.Version = false)
    (hj : orc.upFails mj.Version = true ∨ orc.insertFails mj.Version = true)
    (hbudget : steps < 0 ∨ completed + good.length < steps.toNat) :
    ∃ c, upGo orc steps completed ms db
      = ({ db with
            tracked := db.tracked ++ good.map Migration.Version,
            upsRun := db.upsRun ++ good.map Migration.Version ++ [mj.Version],
            upsOk := db.upsOk ++ good.map Migration.Version
              ++ (if orc.upFails mj.Version then [] else [mj.Version]),
            calls := c }, false) := by
  induction ms generalizing completed db good with
  | nil =>
    exfalso
    simp at hpend
  | cons m ms ih =>
    have hndtail : (ms.map Migration.Version).Nodup := by
      simp only [List.map_cons, List.nodup_cons] at hnd
      exact hnd.2
    have hvnotin : m.Version ∉ ms.map Migration.Version := by
      simp only [List.map_cons, List.nodup_cons] at hnd
      exact hnd.1
    by_cases hstop : (completed : Int) = steps
    · exfalso
      rcases hbudget with h | h
      · omega
      · omega
    · by_cases hmig : m.Version ∈ db.tracked
      · have hmigb : db.tracked.contains m.Version = true := by simpa using hmig
        have hpend2 : ms.filter (fun x => !(db.tracked.contains x.Version))
            = good ++ mj :: rest := by
          rw [← hpend]
          simp [List.filter_cons, hmig]
        obtain ⟨c, hc⟩ := ih completed { db with calls := db.calls + 1 } good
          hndtail hpend2 hgood hbudget
        refine ⟨c, ?_⟩
        have hgo : upGo orc steps completed (m :: ms) db
            = upGo orc steps completed ms { db with calls := db.calls + 1 } := by
          simp [upGo, hstop, migrated, hmig]
        rw [hgo]
        exact hc
      · have hmigb : db.tracked.contains m.Version = false := by simpa using hmig
        have hpendcons : m :: ms.filter (fun x => !(db.tracked.contains x.Version))
            = good ++ mj :: rest := by
          rw [← hpend]
          simp [List.filter_cons, hmig]
        cases good with
        | nil =>
          have hm : m = mj := by
            simpa using congrArg (fun l => l.head?) hpendcons
          subst hm
          by_cases hup : orc.upFails m.Version = true
          · refine ⟨db.calls + 1 + 1, ?_⟩
            simp [upGo, hstop, migrated, hmig, execUp, hup]
          · have hins : orc.insertFails m.Version = true := by
              rcases hj with h | h
              · exact absurd h hup
              · exact h
            refine ⟨db.calls + 1 + 1 + 1, ?_⟩
            simp [upGo, hstop, migrated, hmig, execUp, hup, hins]
        | cons g good2 =>
          have hsplit : m = g ∧ ms.filter (fun x => !(db.tracked.contains x.Version))
              = good2 ++ mj :: rest := by
            rw [List.cons_append] at hpendcons
            exact ⟨(List.cons.injEq _ _ _ _).mp hpendcons |>.1,
              (List.cons.injEq _ _ _ _).mp hpendcons |>.2⟩
          obtain ⟨hmg, hrest⟩ := hsplit
          subst hmg
          have hnfm := hgood m (by simp)
          have hfc : ms.filter (fun x => !((db.tracked ++ [m.Version]).contains x.Version))
              = ms.filter (fun x => !(db.tracked.contains x.Version)) := by
            apply List.filter_congr
            intro x hx
            have hxv : ¬ x.Version = m.Version := by
              intro he
              apply hvnotin
              rw [← he]
              exact List.mem_map_of_mem Migration.Version hx
            simp [hxv]
          have hbudget2 : steps < 0 ∨ (completed + 1) + good2.length < steps.toNat := by
            rcases hbudget with h | h
            · exact Or.inl h
            · simp only [List.length_cons] at h
              exact Or.inr (by omega)
          obtain ⟨c, hc⟩ := ih (completed + 1)
            { db with
              tracked := db.tracked ++ [m.Version],
              upsRun := db.upsRun ++ [m.Version],
              upsOk := db.upsOk ++ [m.Version],
              calls := db.calls + 1 + 1 + 1 } good2 hndtail
            (by
              show ms.filter (fun x => !((db.tracked ++ [m.Version]).contains x.Version))
                = good2 ++ mj :: rest
              rw [hfc]
              exact hrest)
            (fun x hx => hgood x (by simp [hx])) hbudget2
          refine ⟨c, ?_⟩
          have hgo : upGo orc steps completed (m :: ms) db
              = upGo orc steps (completed + 1) ms
                { db with
                  tracked := db.tracked ++ [m.Version],
                  upsRun := db.upsRun ++ [m.Version],
                  upsOk := db.upsOk ++ [m.Version],
                  calls := db.calls + 1 + 1 + 1 } := by
            simp [upGo, hstop, migrated, hmig, execUp, hnfm.1, hnfm.2]
          rw [hgo, hc]
          simp

/-- C7: when the up-SQL Exec of a pending migration fails during an
untargeted Up run, the whole call aborts at that migration: no tracking row
is inserted for it, no later pending migration has its up-SQL executed (the
attempt trace ends at the failing version), and the migrations executed
earlier in the batch keep both their schema effects (their up-SQL succeeded)
and their tracking rows; when instead its up-SQL succeeds and the
tracking-row insert fails, the call aborts with the version applied (its
up-SQL in the success trace) but unrecorded in the tracking table. -/
theorem C7_up_failure_aborts (orc : DBOracle) (steps : Int) (o : IMigrator) (db : DBState)
    (good rest : List Migration) (mj : Migration)
    (hdone : o.setupDone = true)
    (hnd : (o.Migrations.map Migration.Version).Nodup)
    (hpend : (sortAscending o.Migrations).filter (fun x => !(db.tracked.contains x.Version))
        = good ++ mj :: rest)
    (hgood : ∀ m ∈ good, orc.upFails m.Version = false ∧ orc.insertFails m.Version = false)
    (hj : orc.upFails mj.Version = true ∨ orc.insertFails mj.Version = true)
    (hbudget : steps < 0 ∨ good.length < steps.toNat) :
    ∃ c, IMigrator.Up orc steps 0 o db
      = ({ o with Migrations := sortAscending o.Migrations },
          { db with
            tracked := db.tracked ++ good.map Migration.Version,
            upsRun := db.upsRun ++ good.map Migration.Version ++ [mj.Version],
            upsOk := db.upsOk ++ good.map Migration.Version
              ++ (if orc.upFails mj.Version then [] else [mj.Version]),
            calls := c }, false) := by
  have hsetup := setup_done_noop orc o db hdone
  have hperm : (sortAscending o.Migrations).Perm o.Migrations := List.perm_insertionSort _ _
  have hndA : ((sortAscending o.Migrations).map Migration.Version).Nodup :=
    ((hperm.map Migration.Version).nodup_iff).mpr hnd
  have hbudget0 : steps < 0 ∨ 0 + good.length < steps.toNat := by
    rcases hbudget with h | h
    · exact Or.inl h
    · exact Or.inr (by omega)
  obtain ⟨c, hc⟩ := upGo_spec_fail orc steps 0 (sortAscending o.Migrations) db good rest mj
    hndA hpend hgood hj hbudget0
  refine ⟨c, ?_⟩
  simp [IMigrator.Up, hsetup, hc]

/-- Oracle on which only the up-SQL of version 2 fails. -/
def failUp2 : DBOracle :=
  ⟨false, fun v => v == 2, fun _ => false, fun _ => false, fun _ => false⟩

theorem C7_up_failure_aborts_witness :
    ∃ c, IMigrator.Up failUp2 (-1) 0 engineTwo dbEmpty
      = ({ engineTwo with Migrations := sortAscending engineTwo.Migrations },
          { dbEmpty with
            tracked := dbEmpty.tracked ++ [mig1].map Migration.Version,
            upsRun := dbEmpty.upsRun ++ [mig1].map Migration.Version ++ [mig2.Version],
            upsOk := dbEmpty.upsOk ++ [mig1].map Migration.Version
              ++ (if failUp2.upFails mig2.Version then [] else [mig2.Version]),
            calls := c }, false) :=
  C7_up_failure_aborts failUp2 (-1) engineTwo dbEmpty [mig1] [] mig2 rfl
    (by decide) (by decide) (by decide) (Or.inl (by decide)) (Or.inl (by decide))

end Imigrate
